import Mathlib

/-!
Verification of the BadgerOS RAM-filesystem image generator
(`tools/ramfs-gen.py`).

The script walks a host directory tree and emits a C source file containing
one byte-array constant per regular file plus an entry function that
recreates the tree in a virtual filesystem.  The embedding below mirrors the
script: the global accumulators `roms`, `dirs`, `files`, `file_count` become
the fields of `GenState`; the functions `escape`, `add_rom` and `add_dir`
are translated one to one.  The script accumulates already-rendered text;
the embedding accumulates, for each emitted chunk, exactly the arguments the
script interpolates into its format strings (`Rom`, `DirOp`, `FileOp`), and
separate `render` functions reproduce the format strings themselves, so the
emitted text is recoverable verbatim.
-/

/-- One entry of the host filesystem as the generator observes it:
`name` is the `os.listdir` entry name, `isdir` is the result of
`os.path.isdir` on it, `content` is what reading the entry in binary mode
returns (meaningful when `isdir` is false), `children` is its own listing
(meaningful when `isdir` is true).  Bytes are modelled as `Nat`. -/
inductive HostNode where
  | mk (name : String) (isdir : Bool) (content : List Nat) (children : List HostNode)

/-- An embedded byte-array constant: `uint8_t const <name>[] = {...}` plus
`size_t const <name>_len = <lenConst>` as emitted by `add_rom`;
`lenConst` is the `len(data)` the script interpolates. -/
structure Rom where
  name : String
  data : List Nat
  lenConst : Nat
deriving DecidableEq, Repr

/-- One `fs_make_file(... NODE_TYPE_DIRECTORY ...)` line appended to `dirs`
by `add_dir`: the raw (unescaped) path interpolated after escaping, and the
numeric length argument `len(virtpath) + 1 + len(filename)`. -/
structure DirOp where
  path : String
  lenArg : Nat
deriving DecidableEq, Repr

/-- One `fs_open`/`fs_write` block appended to `files` by `add_rom`: the raw
(unescaped) path, the numeric length argument `len(virtpath)`, and the rom
constant the `fs_write` call references by name. -/
structure FileOp where
  path : String
  lenArg : Nat
  rom : Rom
deriving DecidableEq, Repr

/-- The script's global mutable state: the three accumulated output
fragments (as structured lists rather than rendered text), the blob
counter, and a log of the input files opened for reading by `add_rom`. -/
structure GenState where
  roms : List Rom
  dirs : List DirOp
  files : List FileOp
  file_count : Nat
  reads : List String
deriving DecidableEq, Repr

/-- Single-character textual replacement on a character list; this is what
Python `str.replace` does for a one-character needle. -/
def replaceC (c : Char) (sub : List Char) : List Char → List Char
  | [] => []
  | x :: xs => (if x = c then sub else [x]) ++ replaceC c sub xs

/-- `escape` from the script: the chain
`.replace('\\','\\\\').replace('\r','\\r').replace('\n','\\n').replace('"','\\"')`
applied in that order. -/
def escape (raw : String) : String :=
  ⟨replaceC '"' ['\\', '"']
    (replaceC '\n' ['\\', 'n']
      (replaceC '\r' ['\\', 'r']
        (replaceC '\\' ['\\', '\\'] raw.data)))⟩

/-- `add_rom(path, virtpath, name)` from the script: reads the input file
(logged in `reads`), appends the byte-array constant and its length constant
to `roms`, and appends the open/write/assert/drop block to `files`.  The
`content` argument stands for the bytes `infd.read()` returns. -/
def add_rom (st : GenState) (path virtpath name : String) (content : List Nat) : GenState :=
  { st with
    reads := st.reads ++ [path]
    roms := st.roms ++ [⟨name, content, content.length⟩]
    files := st.files ++ [⟨virtpath, virtpath.length, ⟨name, content, content.length⟩⟩] }

/-- `add_dir(path, virtpath)` from the script: iterates over the listing in
order; a directory entry appends its creation line to `dirs` and recurses;
any other entry is passed to `add_rom` with the next `filerom_<n>` name and
the counter is incremented. -/
def add_dir (st : GenState) (es : List HostNode) (path virtpath : String) : GenState :=
  match es with
  | [] => st
  | HostNode.mk name isdir content children :: rest =>
    if isdir then
      let st1 : GenState :=
        { st with dirs := st.dirs ++
            [⟨virtpath ++ "/" ++ name, virtpath.length + 1 + name.length⟩] }
      let st2 := add_dir st1 children (path ++ "/" ++ name) (virtpath ++ "/" ++ name)
      add_dir st2 rest path virtpath
    else
      let st1 := add_rom st (path ++ "/" ++ name) (virtpath ++ "/" ++ name)
        ("filerom_" ++ toString st.file_count) content
      let st2 : GenState := { st1 with file_count := st1.file_count + 1 }
      add_dir st2 rest path virtpath
termination_by sizeOf es
decreasing_by all_goals (simp_wf; try omega)

/-- The initial global state of the script. -/
def initState : GenState := ⟨[], [], [], 0, []⟩

/-- The whole generation pass: `add_dir(sys.argv[1], "")` starting from the
initial globals, where `tree` is the listing of the input directory
`indir`. -/
def generate (tree : List HostNode) (indir : String) : GenState :=
  add_dir initState tree indir ""

/-- Lower-case hexadecimal digit, as Python `{:02x}` uses. -/
def hexDigit (n : Nat) : Char :=
  if n < 10 then Char.ofNat (48 + n) else Char.ofNat (87 + n)

/-- Two-digit lower-case hexadecimal rendering of a byte (`{:02x}`). -/
def hex2 (b : Nat) : String :=
  ⟨[hexDigit (b / 16 % 16), hexDigit (b % 16)]⟩

/-- Text of one rom constant, mirroring the format strings in `add_rom`. -/
def renderRom (r : Rom) : String :=
  "uint8_t const " ++ r.name ++ "[] = \x7b\n    " ++
    String.join (r.data.map (fun b => "0x" ++ hex2 b ++ ",")) ++
    "\n\x7d;\n" ++
    "size_t const " ++ r.name ++ "_len = " ++ toString r.lenConst ++ ";\n"

/-- Text of one directory-creation line, mirroring `add_dir`. -/
def renderDirOp (d : DirOp) : String :=
  "    assert_dev_keep(fs_make_file(FILE_NONE, \"" ++ escape d.path ++ "\", " ++
    toString d.lenArg ++
    ", (make_file_spec_t)\x7b.type = NODE_TYPE_DIRECTORY\x7d) >= 0);\n"

/-- Text of one file open/write/assert/drop block, mirroring `add_rom`. -/
def renderFileOp (f : FileOp) : String :=
  "    fd = fs_open(FILE_NONE, \"" ++ escape f.path ++ "\", " ++ toString f.lenArg ++
    ", FS_O_CREATE | FS_O_WRITE_ONLY).file;\n" ++
  "    assert_always(fd.metadata);\n" ++
  "    len = fs_write(fd, " ++ f.rom.name ++ ", " ++ f.rom.name ++ "_len);\n" ++
  "    assert_always(len == " ++ f.rom.name ++ "_len);\n" ++
  "    fs_file_drop(fd);\n"

/-- The fixed header the script writes before generating. -/
def headerText : String :=
  "// WARNING: This is a generated file, do not edit it!\n" ++
  "// clang-format off\n" ++
  "// NOLINTBEGIN\n" ++
  "#include <stdint.h>\n" ++
  "#include <stddef.h>\n" ++
  "#include \"filesystem.h\"\n" ++
  "#include \"assertions.h\"\n"

/-- The complete output file contents for a finished generation state and
entry-function name, mirroring the `outfd.write` sequence at top level. -/
def outputText (st : GenState) (fname : String) : String :=
  headerText ++
  String.join (st.roms.map renderRom) ++
  "void " ++ fname ++ "() \x7b\n" ++
  "    file_t fd;\n" ++
  "    errno64_t len;\n" ++
  String.join (st.dirs.map renderDirOp) ++
  String.join (st.files.map renderFileOp) ++
  "    (void)len;\n" ++
  "\x7d\n" ++
  "// NOLINTEND\n"

/-- Outcome of one invocation of the script: either the usage branch
(message printed, exit code) or a successful run (output path and contents
written, input paths read, text printed on stdout). -/
inductive RunResult where
  | usage (msg : String) (code : Nat)
  | ok (outPath : String) (contents : String) (reads : List String) (stdout : String)
deriving DecidableEq

/-- Top level of the script: check `len(sys.argv) != 4`, print usage and
exit 1 on failure, otherwise walk `argv[1]` and write the artifact to
`argv[2]` using entry-function name `argv[3]`.  `host` maps a directory
path to its listing. -/
def ramfsGenMain (argv : List String) (host : String → List HostNode) : RunResult :=
  if argv.length ≠ 4 then
    RunResult.usage "Usage: ramfs-gen.py [indir] [outfile] [name]" 1
  else
    let indir := argv.getD 1 ""
    let st := generate (host indir) indir
    RunResult.ok (argv.getD 2 "") (outputText st (argv.getD 3 "")) st.reads ""

/-- The files a run writes (path, contents): none in the usage branch,
exactly the output file otherwise. -/
def writesOf : RunResult → List (String × String)
  | RunResult.usage _ _ => []
  | RunResult.ok p c _ _ => [(p, c)]

/-- The files a run opens for reading. -/
def readsOf : RunResult → List String
  | RunResult.usage _ _ => []
  | RunResult.ok _ _ r _ => r

/-- What a run prints: the usage message in the usage branch, nothing on
success. -/
def stdoutOf : RunResult → String
  | RunResult.usage m _ => m
  | RunResult.ok _ _ _ s => s

/-- Exit code of a run. -/
def exitCodeOf : RunResult → Nat
  | RunResult.usage _ c => c
  | RunResult.ok _ _ _ _ => 0

/-- A node of the target virtual filesystem: a directory or a regular file
with its bytes. -/
inductive VNode where
  | dir
  | file (data : List Nat)
deriving DecidableEq, Repr

/-- One operation of the emitted entry-function body: a directory-creation
line or a file open/write block. -/
inductive Op where
  | mkdir (d : DirOp)
  | fwrite (f : FileOp)
deriving DecidableEq, Repr

/-- The virtual path an operation acts on. -/
def Op.path : Op → String
  | Op.mkdir d => d.path
  | Op.fwrite f => f.path

/-- The operations of the emitted entry-function body, in emission order:
the whole `dirs` fragment, then the whole `files` fragment. -/
def bodyOps (st : GenState) : List Op :=
  st.dirs.map Op.mkdir ++ st.files.map Op.fwrite

/-- Effect of one body operation on a virtual filesystem, modelled as the
list of (path, node) bindings it creates: `fs_make_file` with
`NODE_TYPE_DIRECTORY` creates a directory; `fs_open` with
`FS_O_CREATE | FS_O_WRITE_ONLY` followed by `fs_write(fd, rom, rom_len)`
creates the file and writes the first `rom_len` bytes of the referenced
constant. -/
def runOp (fs : List (String × VNode)) : Op → List (String × VNode)
  | Op.mkdir d => fs ++ [(d.path, VNode.dir)]
  | Op.fwrite f => fs ++ [(f.path, VNode.file (f.rom.data.take f.rom.lenConst))]

/-- Execute a sequence of body operations in order. -/
def runOps (fs : List (String × VNode)) (ops : List Op) : List (String × VNode) :=
  ops.foldl runOp fs

/-- The single binding one operation creates (see `runOp`). -/
def opPair : Op → String × VNode
  | Op.mkdir d => (d.path, VNode.dir)
  | Op.fwrite f => (f.path, VNode.file (f.rom.data.take f.rom.lenConst))

/-- Modelled from the spec: the input tree as it should appear in the
target filesystem — every entry under virtual prefix `vp` paired with its
node type and (for files) its exact bytes, listed in tree-walk discovery
order.  The virtual root is the empty string and a child of `vp` lives at
`vp ++ "/" ++ name`. -/
def hostTree (es : List HostNode) (vp : String) : List (String × VNode) :=
  match es with
  | [] => []
  | HostNode.mk name isdir content children :: rest =>
    if isdir then
      (vp ++ "/" ++ name, VNode.dir) ::
        (hostTree children (vp ++ "/" ++ name) ++ hostTree rest vp)
    else
      (vp ++ "/" ++ name, VNode.file content) :: hostTree rest vp
termination_by sizeOf es
decreasing_by all_goals (simp_wf; try omega)

/-- Whether a virtual node is a directory. -/
def VNode.isDir : VNode → Bool
  | VNode.dir => true
  | VNode.file _ => false

/-- Modelled from the spec: the directory entries of the input tree in
discovery order. -/
def specDirPairs (es : List HostNode) (vp : String) : List (String × VNode) :=
  (hostTree es vp).filter (fun x => x.2.isDir)

/-- Modelled from the spec: the regular-file entries of the input tree in
discovery order. -/
def specFilePairs (es : List HostNode) (vp : String) : List (String × VNode) :=
  (hostTree es vp).filter (fun x => !x.2.isDir)

/-- Functional description of one generation step, used to reason about
`add_dir`: the fresh contribution of walking listing `es` at host path `hp`
and virtual path `vp` with the blob counter starting at `k`; the
`file_count` field holds the final counter value. -/
def walk (es : List HostNode) (hp vp : String) (k : Nat) : GenState :=
  match es with
  | [] => ⟨[], [], [], k, []⟩
  | HostNode.mk name isdir content children :: rest =>
    if isdir then
      let d : DirOp := ⟨vp ++ "/" ++ name, vp.length + 1 + name.length⟩
      let s1 := walk children (hp ++ "/" ++ name) (vp ++ "/" ++ name) k
      let s2 := walk rest hp vp s1.file_count
      ⟨s1.roms ++ s2.roms, d :: (s1.dirs ++ s2.dirs), s1.files ++ s2.files,
        s2.file_count, s1.reads ++ s2.reads⟩
    else
      let r : Rom := ⟨"filerom_" ++ toString k, content, content.length⟩
      let f : FileOp := ⟨vp ++ "/" ++ name, (vp ++ "/" ++ name).length, r⟩
      let s2 := walk rest hp vp (k + 1)
      ⟨r :: s2.roms, s2.dirs, f :: s2.files, s2.file_count,
        (hp ++ "/" ++ name) :: s2.reads⟩
termination_by sizeOf es
decreasing_by all_goals (simp_wf; try omega)

/-- Well-formed host listing: every entry name is nonempty and contains no
slash, recursively — which is what `os.listdir` guarantees. -/
def wfForest (es : List HostNode) : Bool :=
  match es with
  | [] => true
  | HostNode.mk name _ _ children :: rest =>
    (name ≠ "" && name.data.all (fun c => c ≠ '/')) &&
      wfForest children && wfForest rest
termination_by sizeOf es
decreasing_by all_goals (simp_wf; try omega)

/-- Induction principle following the recursion scheme of `add_dir`:
to prove a property of every listing it suffices to prove it for the empty
listing and for a cons given it for the children and for the rest. -/
theorem forest_ind (P : List HostNode → Prop) (h0 : P [])
    (h1 : ∀ name isdir content children rest, P children → P rest →
      P (HostNode.mk name isdir content children :: rest)) :
    ∀ es, P es
  | [] => h0
  | HostNode.mk n b c ch :: rest =>
    h1 n b c ch rest (forest_ind P h0 h1 ch) (forest_ind P h0 h1 rest)
termination_by es => sizeOf es
decreasing_by all_goals (simp_wf; try omega)

/-- Ancestor-ordering property of a directory-operation list: for every
operation in the list and every nonempty strict ancestor `q` of its path
(`path = q ++ "/" ++ r`), either `q` was already created before the list
started (`q ∈ done`) or some earlier operation of the list creates `q`. -/
def dirAncOk (done : List String) (L : List DirOp) : Prop :=
  ∀ (i : Nat) (d : DirOp) (q r : String), L[i]? = some d → q ≠ "" →
    d.path = q ++ "/" ++ r →
    q ∈ done ∨ ∃ j, j < i ∧ ∃ d' : DirOp, L[j]? = some d' ∧ d'.path = q

/-- Per-character form of `escape`: the image of one character under the
four replacements. -/
def escChar (c : Char) : List Char :=
  if c = '\\' then ['\\', '\\']
  else if c = '\r' then ['\\', 'r']
  else if c = '\n' then ['\\', 'n']
  else if c = '"' then ['\\', '"']
  else [c]

/-- Character-wise escaping of a whole character list. -/
def escAll : List Char → List Char
  | [] => []
  | c :: cs => escChar c ++ escAll cs

/-- Modelled from the spec: the downstream C compiler's reading of a string
literal's characters — a backslash followed by a code character denotes the
escaped character, anything else denotes itself.  Only the escape codes the
generator can produce are given a meaning distinct from themselves. -/
def cUnescape : List Char → List Char
  | [] => []
  | c :: cs =>
    if c = '\\' then
      match cs with
      | [] => []
      | d :: rest =>
        (if d = 'r' then '\r' else if d = 'n' then '\n' else d) :: cUnescape rest
    else c :: cUnescape cs

/-- Length of the one-character path separator. -/
theorem slash_length : ("/" : String).length = 1 := rfl

/-- The state-passing `add_dir` is the initial state extended by the fresh
contribution `walk` computes: each accumulator grows by exactly the walk's
output and the counter advances to the walk's final value. -/
theorem add_dir_eq (es : List HostNode) : ∀ (st : GenState) (hp vp : String),
    add_dir st es hp vp =
      ⟨st.roms ++ (walk es hp vp st.file_count).roms,
       st.dirs ++ (walk es hp vp st.file_count).dirs,
       st.files ++ (walk es hp vp st.file_count).files,
       (walk es hp vp st.file_count).file_count,
       st.reads ++ (walk es hp vp st.file_count).reads⟩ := by
  induction es using forest_ind with
  | h0 => intro st hp vp; simp [add_dir, walk]
  | h1 name isdir content children rest ih1 ih2 =>
    intro st hp vp
    cases isdir with
    | true =>
      simp only [add_dir, walk, eq_self_iff_true, if_true]
      rw [ih1, ih2]
      simp [List.append_assoc]
    | false =>
      simp only [add_dir, walk, add_rom, Bool.false_eq_true, if_false]
      rw [ih2]
      simp [List.append_assoc]

/-- The whole generation pass is the walk from the empty state. -/
theorem generate_eq (tree : List HostNode) (indir : String) :
    generate tree indir = walk tree indir "" 0 := by
  rw [generate, add_dir_eq]
  simp [initState]

/-- Unfolding of `walk` on the empty listing. -/
theorem walk_nil (hp vp : String) (k : Nat) : walk [] hp vp k = ⟨[], [], [], k, []⟩ := by
  simp [walk]

/-- Unfolding of `walk` on a directory entry. -/
theorem walk_cons_dir (n : String) (c : List Nat) (ch rest : List HostNode)
    (hp vp : String) (k : Nat) :
    walk (HostNode.mk n true c ch :: rest) hp vp k =
      ⟨(walk ch (hp ++ "/" ++ n) (vp ++ "/" ++ n) k).roms ++
         (walk rest hp vp (walk ch (hp ++ "/" ++ n) (vp ++ "/" ++ n) k).file_count).roms,
       ⟨vp ++ "/" ++ n, vp.length + 1 + n.length⟩ ::
         ((walk ch (hp ++ "/" ++ n) (vp ++ "/" ++ n) k).dirs ++
          (walk rest hp vp (walk ch (hp ++ "/" ++ n) (vp ++ "/" ++ n) k).file_count).dirs),
       (walk ch (hp ++ "/" ++ n) (vp ++ "/" ++ n) k).files ++
         (walk rest hp vp (walk ch (hp ++ "/" ++ n) (vp ++ "/" ++ n) k).file_count).files,
       (walk rest hp vp (walk ch (hp ++ "/" ++ n) (vp ++ "/" ++ n) k).file_count).file_count,
       (walk ch (hp ++ "/" ++ n) (vp ++ "/" ++ n) k).reads ++
         (walk rest hp vp (walk ch (hp ++ "/" ++ n) (vp ++ "/" ++ n) k).file_count).reads⟩ := by
  simp only [walk, eq_self_iff_true, if_true]

/-- Unfolding of `walk` on a non-directory entry. -/
theorem walk_cons_file (n : String) (c : List Nat) (ch rest : List HostNode)
    (hp vp : String) (k : Nat) :
    walk (HostNode.mk n false c ch :: rest) hp vp k =
      ⟨⟨"filerom_" ++ toString k, c, c.length⟩ :: (walk rest hp vp (k + 1)).roms,
       (walk rest hp vp (k + 1)).dirs,
       ⟨vp ++ "/" ++ n, (vp ++ "/" ++ n).length, ⟨"filerom_" ++ toString k, c, c.length⟩⟩ ::
         (walk rest hp vp (k + 1)).files,
       (walk rest hp vp (k + 1)).file_count,
       (hp ++ "/" ++ n) :: (walk rest hp vp (k + 1)).reads⟩ := by
  simp only [walk, Bool.false_eq_true, if_false]

/-- Unfolding of `hostTree` on a directory entry. -/
theorem hostTree_cons_dir (n : String) (c : List Nat) (ch rest : List HostNode)
    (vp : String) :
    hostTree (HostNode.mk n true c ch :: rest) vp =
      (vp ++ "/" ++ n, VNode.dir) ::
        (hostTree ch (vp ++ "/" ++ n) ++ hostTree rest vp) := by
  simp only [hostTree, eq_self_iff_true, if_true]

/-- Unfolding of `hostTree` on a non-directory entry. -/
theorem hostTree_cons_file (n : String) (c : List Nat) (ch rest : List HostNode)
    (vp : String) :
    hostTree (HostNode.mk n false c ch :: rest) vp =
      (vp ++ "/" ++ n, VNode.file c) :: hostTree rest vp := by
  simp only [hostTree, Bool.false_eq_true, if_false]

/-- The rom list is exactly the rom component of the file-operation list:
one blob per emitted file operation, in the same order. -/
theorem walk_roms_eq_files (es : List HostNode) : ∀ hp vp k,
    (walk es hp vp k).roms = (walk es hp vp k).files.map FileOp.rom := by
  induction es using forest_ind with
  | h0 => intro hp vp k; simp [walk_nil]
  | h1 n b c ch rest ih1 ih2 =>
    intro hp vp k
    cases b with
    | true => simp [walk_cons_dir, ih1, ih2]
    | false => simp [walk_cons_file, ih2]

/-- The emitted file operations carry exactly the file entries of the input
tree, with their full byte contents, in discovery order. -/
theorem walk_files_pairs (es : List HostNode) : ∀ hp vp k,
    (walk es hp vp k).files.map (fun f => (f.path, VNode.file f.rom.data)) =
      specFilePairs es vp := by
  induction es using forest_ind with
  | h0 => intro hp vp k; simp [walk_nil, specFilePairs, hostTree]
  | h1 n b c ch rest ih1 ih2 =>
    intro hp vp k
    cases b with
    | true =>
      have h1 := ih1 (hp ++ "/" ++ n) (vp ++ "/" ++ n) k
      have h2 := ih2 hp vp (walk ch (hp ++ "/" ++ n) (vp ++ "/" ++ n) k).file_count
      simp [walk_cons_dir, h1, h2, specFilePairs, hostTree_cons_dir,
        List.filter_append, VNode.isDir]
    | false =>
      have h2 := ih2 hp vp (k + 1)
      simp [walk_cons_file, h2, specFilePairs, hostTree_cons_file, VNode.isDir]

/-- The emitted directory operations carry exactly the directory entries of
the input tree, in discovery order. -/
theorem walk_dirs_pairs (es : List HostNode) : ∀ hp vp k,
    (walk es hp vp k).dirs.map (fun d => (d.path, VNode.dir)) =
      specDirPairs es vp := by
  induction es using forest_ind with
  | h0 => intro hp vp k; simp [walk_nil, specDirPairs, hostTree]
  | h1 n b c ch rest ih1 ih2 =>
    intro hp vp k
    cases b with
    | true =>
      have h1 := ih1 (hp ++ "/" ++ n) (vp ++ "/" ++ n) k
      have h2 := ih2 hp vp (walk ch (hp ++ "/" ++ n) (vp ++ "/" ++ n) k).file_count
      simp [walk_cons_dir, h1, h2, specDirPairs, hostTree_cons_dir,
        List.filter_append, VNode.isDir]
    | false =>
      have h2 := ih2 hp vp (k + 1)
      simp [walk_cons_file, h2, specDirPairs, hostTree_cons_file, VNode.isDir]

/-- The counter advances by exactly one per emitted blob. -/
theorem walk_file_count (es : List HostNode) : ∀ hp vp k,
    (walk es hp vp k).file_count = k + (walk es hp vp k).roms.length := by
  induction es using forest_ind with
  | h0 => intro hp vp k; simp [walk_nil]
  | h1 n b c ch rest ih1 ih2 =>
    intro hp vp k
    cases b with
    | true =>
      rw [walk_cons_dir]
      simp only [List.length_append]
      rw [ih2, ih1]
      omega
    | false =>
      rw [walk_cons_file]
      simp only [List.length_cons]
      rw [ih2]
      omega

/-- Blob names are `filerom_<i>` for counter values increasing by one from
the starting value, in emission order. -/
theorem walk_rom_names (es : List HostNode) : ∀ hp vp k,
    (walk es hp vp k).roms.map Rom.name =
      (List.range (walk es hp vp k).roms.length).map
        (fun i => "filerom_" ++ toString (k + i)) := by
  induction es using forest_ind with
  | h0 => intro hp vp k; simp [walk_nil]
  | h1 n b c ch rest ih1 ih2 =>
    intro hp vp k
    cases b with
    | true =>
      rw [walk_cons_dir]
      simp only [List.map_append, List.length_append, List.range_add, List.map_map]
      rw [ih1, ih2, walk_file_count]
      congr 1
      apply List.map_congr_left
      intro i _
      simp only [Function.comp]
      rw [Nat.add_assoc]
    | false =>
      rw [walk_cons_file]
      simp only [List.map_cons, List.length_cons]
      rw [ih2]
      rw [List.range_succ_eq_map]
      simp only [List.map_cons, List.map_map, Nat.add_zero]
      congr 1
      apply List.map_congr_left
      intro i _
      simp only [Function.comp]
      congr 2
      omega

/-- Every emitted directory-creation length argument equals the character
length of the raw (unescaped) virtual path it creates. -/
theorem walk_dirs_lenArg (es : List HostNode) : ∀ hp vp k d,
    d ∈ (walk es hp vp k).dirs → d.lenArg = d.path.length := by
  induction es using forest_ind with
  | h0 => intro hp vp k d hd; simp [walk_nil] at hd
  | h1 n b c ch rest ih1 ih2 =>
    intro hp vp k d hd
    cases b with
    | true =>
      rw [walk_cons_dir] at hd
      simp only [List.mem_cons, List.mem_append] at hd
      rcases hd with h | h | h
      · subst h
        simp [String.length_append, slash_length]
      · exact ih1 _ _ _ _ h
      · exact ih2 _ _ _ _ h
    | false =>
      rw [walk_cons_file] at hd
      exact ih2 _ _ _ _ hd

/-- Every emitted file-open length argument equals the character length of
the raw (unescaped) virtual path it opens. -/
theorem walk_files_lenArg (es : List HostNode) : ∀ hp vp k f,
    f ∈ (walk es hp vp k).files → f.lenArg = f.path.length := by
  induction es using forest_ind with
  | h0 => intro hp vp k f hf; simp [walk_nil] at hf
  | h1 n b c ch rest ih1 ih2 =>
    intro hp vp k f hf
    cases b with
    | true =>
      rw [walk_cons_dir] at hf
      simp only [List.mem_append] at hf
      rcases hf with h | h
      · exact ih1 _ _ _ _ h
      · exact ih2 _ _ _ _ h
    | false =>
      rw [walk_cons_file] at hf
      simp only [List.mem_cons] at hf
      rcases hf with h | h
      · subst h; rfl
      · exact ih2 _ _ _ _ h

/-- Every emitted blob's length constant is the byte count of its data. -/
theorem walk_roms_lenConst (es : List HostNode) : ∀ hp vp k r,
    r ∈ (walk es hp vp k).roms → r.lenConst = r.data.length := by
  induction es using forest_ind with
  | h0 => intro hp vp k r hr; simp [walk_nil] at hr
  | h1 n b c ch rest ih1 ih2 =>
    intro hp vp k r hr
    cases b with
    | true =>
      rw [walk_cons_dir] at hr
      simp only [List.mem_append] at hr
      rcases hr with h | h
      · exact ih1 _ _ _ _ h
      · exact ih2 _ _ _ _ h
    | false =>
      rw [walk_cons_file] at hr
      simp only [List.mem_cons] at hr
      rcases hr with h | h
      · subst h; rfl
      · exact ih2 _ _ _ _ h

/-- Every input path the walk opens for reading lies under the host
directory being walked. -/
theorem walk_reads_under (es : List HostNode) : ∀ hp vp k r,
    r ∈ (walk es hp vp k).reads → ∃ s, r = hp ++ "/" ++ s := by
  induction es using forest_ind with
  | h0 => intro hp vp k r hr; simp [walk_nil] at hr
  | h1 n b c ch rest ih1 ih2 =>
    intro hp vp k r hr
    cases b with
    | true =>
      rw [walk_cons_dir] at hr
      simp only [List.mem_append] at hr
      rcases hr with h | h
      · rcases ih1 _ _ _ _ h with ⟨s, hs⟩
        exact ⟨n ++ ("/" ++ s), by rw [hs]; simp [String.append_assoc]⟩
      · exact ih2 _ _ _ _ h
    | false =>
      rw [walk_cons_file] at hr
      simp only [List.mem_cons] at hr
      rcases hr with h | h
      · exact ⟨n, h⟩
      · exact ih2 _ _ _ _ h

/-- One file is opened for reading per emitted file operation. -/
theorem walk_reads_length (es : List HostNode) : ∀ hp vp k,
    (walk es hp vp k).reads.length = (walk es hp vp k).files.length := by
  induction es using forest_ind with
  | h0 => intro hp vp k; simp [walk_nil]
  | h1 n b c ch rest ih1 ih2 =>
    intro hp vp k
    cases b with
    | true =>
      rw [walk_cons_dir]
      simp [ih1, ih2]
    | false =>
      rw [walk_cons_file]
      simp [ih2]

/-- Splitting a node list into its directory part and its file part loses
no entry. -/
theorem filter_isDir_length (l : List (String × VNode)) :
    (l.filter (fun x => x.2.isDir)).length +
      (l.filter (fun x => !x.2.isDir)).length = l.length := by
  have h := (List.filter_append_perm (fun x => x.2.isDir) l).length_eq
  simpa [List.length_append] using h

/-- Executing a body from any filesystem appends exactly one binding per
operation, in order. -/
theorem runOps_eq (ops : List Op) : ∀ fs, runOps fs ops = fs ++ ops.map opPair := by
  induction ops with
  | nil => intro fs; simp [runOps]
  | cons op ops ih =>
    intro fs
    have hstep : runOp fs op = fs ++ [opPair op] := by
      cases op <;> rfl
    calc runOps fs (op :: ops) = runOps (runOp fs op) ops := rfl
      _ = runOp fs op ++ ops.map opPair := ih _
      _ = fs ++ (op :: ops).map opPair := by
          rw [hstep]
          simp

/-- The directory entries followed by the file entries are a permutation of
the whole tree listing. -/
theorem specPairs_perm (es : List HostNode) (vp : String) :
    (specDirPairs es vp ++ specFilePairs es vp).Perm (hostTree es vp) :=
  List.filter_append_perm _ _

/-- The bindings created by the generated body are, in order, the directory
entries of the tree (discovery order) followed by its file entries with
their exact bytes (discovery order). -/
theorem bodyOps_pairs (tree : List HostNode) (indir : String) :
    (bodyOps (generate tree indir)).map opPair =
      specDirPairs tree "" ++ specFilePairs tree "" := by
  rw [bodyOps, List.map_append, List.map_map, List.map_map]
  rw [generate_eq]
  have hd : (walk tree indir "" 0).dirs.map (opPair ∘ Op.mkdir) =
      specDirPairs tree "" := by
    rw [← walk_dirs_pairs tree indir "" 0]
    apply List.map_congr_left
    intro d _
    rfl
  have hf : (walk tree indir "" 0).files.map (opPair ∘ Op.fwrite) =
      specFilePairs tree "" := by
    rw [← walk_files_pairs tree indir "" 0]
    apply List.map_congr_left
    intro f hfm
    have hrom : f.rom ∈ (walk tree indir "" 0).roms := by
      rw [walk_roms_eq_files]
      exact List.mem_map_of_mem FileOp.rom hfm
    have hlen := walk_roms_lenConst tree indir "" 0 f.rom hrom
    simp only [Function.comp, opPair]
    rw [hlen, List.take_length]
  rw [hd, hf]

/-- Data of the one-character path separator. -/
theorem slash_data : ("/" : String).data = ['/'] := rfl

/-- Splitting a character list of the form `A ++ '/' :: N` — a parent path
followed by a separator and a slash-free entry name — at an arbitrary
slash: the part before that slash is all of `A` or a strict prefix of `A`
ending at a slash of `A`. -/
theorem split_at_slash (A N Q R : List Char) (hns : '/' ∉ N)
    (h : A ++ '/' :: N = Q ++ '/' :: R) :
    Q = A ∨ ∃ T, A = Q ++ '/' :: T := by
  rcases Nat.lt_trichotomy Q.length A.length with hlt | heq | hgt
  · right
    have hq : (A ++ '/' :: N)[Q.length]? = (Q ++ '/' :: R)[Q.length]? := by rw [h]
    rw [List.getElem?_append_left hlt,
      List.getElem?_append_right (Nat.le_refl _), Nat.sub_self] at hq
    have hslash : A[Q.length]? = some '/' := by simpa using hq
    rcases List.getElem?_eq_some_iff.mp hslash with ⟨hb, hA⟩
    have hdrop : A.drop Q.length = '/' :: A.drop (Q.length + 1) := by
      rw [List.drop_eq_getElem_cons hb, hA]
    have e1 : A ++ '/' :: N =
        A.take Q.length ++ ('/' :: (A.drop (Q.length + 1) ++ '/' :: N)) := by
      conv_lhs => rw [← List.take_append_drop Q.length A]
      rw [hdrop]
      simp [List.append_assoc]
    have e2 : A.take Q.length ++ ('/' :: (A.drop (Q.length + 1) ++ '/' :: N)) =
        Q ++ '/' :: R := by rw [← e1, h]
    have hlen2 : (A.take Q.length).length = Q.length := by
      rw [List.length_take]
      omega
    rcases List.append_inj e2 hlen2 with ⟨hTQ, _⟩
    refine ⟨A.drop (Q.length + 1), ?_⟩
    conv_lhs => rw [← List.take_append_drop Q.length A]
    rw [hdrop, hTQ]
  · left
    rcases List.append_inj h heq.symm with ⟨hAQ, _⟩
    exact hAQ.symm
  · exfalso
    have hq : (A ++ '/' :: N)[Q.length]? = (Q ++ '/' :: R)[Q.length]? := by rw [h]
    rw [List.getElem?_append_right (Nat.le_of_lt hgt),
      List.getElem?_append_right (Nat.le_refl _), Nat.sub_self] at hq
    have hm : Q.length - A.length = (Q.length - A.length - 1) + 1 := by omega
    rw [hm, List.getElem?_cons_succ] at hq
    have hmem : '/' ∈ N := List.getElem?_mem (by simpa using hq)
    exact hns hmem

/-- String version of `split_at_slash`: any nonempty strict ancestor of
`vp ++ "/" ++ name` (for a slash-free `name`) is `vp` itself or a strict
ancestor of `vp`. -/
theorem split_at_slash_str (vp name q r : String) (hns : '/' ∉ name.data)
    (h : vp ++ "/" ++ name = q ++ "/" ++ r) :
    q = vp ∨ ∃ t : String, vp = q ++ "/" ++ t := by
  have hd : vp.data ++ '/' :: name.data = q.data ++ '/' :: r.data := by
    have h2 := congrArg String.data h
    simpa [String.data_append, slash_data] using h2
  rcases split_at_slash vp.data name.data q.data r.data hns hd with h1 | ⟨T, hT⟩
  · exact Or.inl (String.ext h1)
  · refine Or.inr ⟨⟨T⟩, ?_⟩
    apply String.ext
    simpa [String.data_append, slash_data] using hT

/-- `dirAncOk` is monotone in the set of already-created directories. -/
theorem dirAncOk_mono {done done' : List String} {L : List DirOp}
    (hsub : ∀ q, q ∈ done → q ∈ done') (h : dirAncOk done L) : dirAncOk done' L := by
  intro i d q r hi hq hpath
  rcases h i d q r hi hq hpath with hin | hex
  · exact Or.inl (hsub q hin)
  · exact Or.inr hex

/-- `dirAncOk` composes over concatenation: ancestors found earlier inside
either part are still earlier inside the whole. -/
theorem dirAncOk_append {done : List String} {L1 L2 : List DirOp}
    (h1 : dirAncOk done L1) (h2 : dirAncOk done L2) : dirAncOk done (L1 ++ L2) := by
  intro i d q r hi hq hpath
  by_cases hlt : i < L1.length
  · rw [List.getElem?_append_left hlt] at hi
    rcases h1 i d q r hi hq hpath with hin | ⟨j, hj, d', hd', hp'⟩
    · exact Or.inl hin
    · refine Or.inr ⟨j, hj, d', ?_, hp'⟩
      have hjlt : j < L1.length := Nat.lt_trans hj hlt
      rw [List.getElem?_append_left hjlt]
      exact hd'
  · have hge : L1.length ≤ i := Nat.le_of_not_lt hlt
    rw [List.getElem?_append_right hge] at hi
    rcases h2 (i - L1.length) d q r hi hq hpath with hin | ⟨j, hj, d', hd', hp'⟩
    · exact Or.inl hin
    · refine Or.inr ⟨L1.length + j, by omega, d', ?_, hp'⟩
      rw [List.getElem?_append_right (by omega)]
      simpa [Nat.add_sub_cancel_left] using hd'

/-- `dirAncOk` composes over a leading operation whose ancestors are all
already created: the tail may additionally rely on the head's path. -/
theorem dirAncOk_cons {done : List String} {d0 : DirOp} {L : List DirOp}
    (hd0 : ∀ q r : String, q ≠ "" → d0.path = q ++ "/" ++ r → q ∈ done)
    (hL : dirAncOk (done ++ [d0.path]) L) : dirAncOk done (d0 :: L) := by
  intro i d q r hi hq hpath
  cases i with
  | zero =>
    simp only [List.getElem?_cons_zero, Option.some_inj] at hi
    subst hi
    exact Or.inl (hd0 q r hq hpath)
  | succ i' =>
    rw [List.getElem?_cons_succ] at hi
    rcases hL i' d q r hi hq hpath with hin | ⟨j, hj, d', hd', hp'⟩
    · rcases List.mem_append.mp hin with hin' | hin'
      · exact Or.inl hin'
      · have hqp : q = d0.path := by simpa using hin'
        refine Or.inr ⟨0, Nat.succ_pos _, d0, ?_, hqp.symm⟩
        simp
    · refine Or.inr ⟨j + 1, Nat.succ_lt_succ hj, d', ?_, hp'⟩
      rw [List.getElem?_cons_succ]
      exact hd'

/-- Unfolding of the well-formedness check on a cons cell. -/
theorem wfForest_cons (n : String) (b : Bool) (c : List Nat)
    (ch rest : List HostNode) :
    wfForest (HostNode.mk n b c ch :: rest) = true ↔
      (n ≠ "" ∧ ∀ x ∈ n.data, x ≠ '/') ∧
        wfForest ch = true ∧ wfForest rest = true := by
  conv_lhs => rw [wfForest]
  simp [List.all_eq_true, and_assoc]

/-- Ancestor invariant of the walk.  If every nonempty prefix of the current
virtual path (itself included) is already created (`∈ done`), then every
emitted directory operation's nonempty strict ancestors are created by an
earlier directory operation or were already in `done`, and every emitted
file operation's nonempty strict ancestors are created by some directory
operation of this walk or were already in `done`. -/
theorem walk_ancestors (es : List HostNode) : ∀ hp vp k done,
    wfForest es = true →
    (∀ q : String, q ≠ "" → (q = vp ∨ ∃ r : String, vp = q ++ "/" ++ r) → q ∈ done) →
    dirAncOk done (walk es hp vp k).dirs ∧
    (∀ f, f ∈ (walk es hp vp k).files → ∀ (q r : String), q ≠ "" →
      f.path = q ++ "/" ++ r →
      q ∈ done ∨ q ∈ (walk es hp vp k).dirs.map DirOp.path) := by
  induction es using forest_ind with
  | h0 =>
    intro hp vp k done hwf hvp
    constructor
    · intro i d q r hi hq hpath
      rw [walk_nil] at hi
      simp at hi
    · intro f hf
      rw [walk_nil] at hf
      simp at hf
  | h1 n b c ch rest ih1 ih2 =>
    intro hp vp k done hwf hvp
    rw [wfForest_cons] at hwf
    obtain ⟨⟨hnne, hnall⟩, hwf1, hwf2⟩ := hwf
    have hnmem : '/' ∉ n.data := fun hm => hnall '/' hm rfl
    have hanc_p : ∀ q r : String, q ≠ "" → vp ++ "/" ++ n = q ++ "/" ++ r →
        q ∈ done := by
      intro q r hq hpr
      rcases split_at_slash_str vp n q r hnmem hpr with h1 | h2
      · exact hvp q hq (Or.inl h1)
      · exact hvp q hq (Or.inr h2)
    cases b with
    | true =>
      have hvp1 : ∀ q : String, q ≠ "" →
          (q = vp ++ "/" ++ n ∨ ∃ r : String, vp ++ "/" ++ n = q ++ "/" ++ r) →
          q ∈ done ++ [vp ++ "/" ++ n] := by
        intro q hq hcase
        rcases hcase with hqp | ⟨r, hr⟩
        · subst hqp; simp
        · exact List.mem_append_left _ (hanc_p q r hq hr)
      have I1 := ih1 (hp ++ "/" ++ n) (vp ++ "/" ++ n) k
        (done ++ [vp ++ "/" ++ n]) hwf1 hvp1
      have I2 := ih2 hp vp
        (walk ch (hp ++ "/" ++ n) (vp ++ "/" ++ n) k).file_count done hwf2 hvp
      rw [walk_cons_dir]
      dsimp only
      constructor
      · apply dirAncOk_cons
        · intro q r hq hpath
          exact hanc_p q r hq hpath
        · apply dirAncOk_append I1.1
          exact dirAncOk_mono (fun q hq => List.mem_append_left _ hq) I2.1
      · intro f hf q r hq hpath
        rcases List.mem_append.mp hf with hf1 | hf2
        · rcases I1.2 f hf1 q r hq hpath with hin | hin
          · rcases List.mem_append.mp hin with h | h
            · exact Or.inl h
            · refine Or.inr ?_
              rw [List.map_cons]
              exact List.mem_cons.mpr (Or.inl (by simpa using h))
          · refine Or.inr ?_
            rw [List.map_cons]
            refine List.mem_cons.mpr (Or.inr ?_)
            rw [List.map_append]
            exact List.mem_append_left _ hin
        · rcases I2.2 f hf2 q r hq hpath with hin | hin
          · exact Or.inl hin
          · refine Or.inr ?_
            rw [List.map_cons]
            refine List.mem_cons.mpr (Or.inr ?_)
            rw [List.map_append]
            exact List.mem_append_right _ hin
    | false =>
      have I2 := ih2 hp vp (k + 1) done hwf2 hvp
      rw [walk_cons_file]
      dsimp only
      constructor
      · exact I2.1
      · intro f hf q r hq hpath
        rcases List.mem_cons.mp hf with hf0 | hf2
        · subst hf0
          exact Or.inl (hanc_p q r hq hpath)
        · exact I2.2 f hf2 q r hq hpath

/-- A `mkdir` found in the body lies in the directory section, at its own
index. -/
theorem bodyOps_mkdir_index (st : GenState) (i : Nat) (d : DirOp)
    (h : (bodyOps st)[i]? = some (Op.mkdir d)) :
    i < st.dirs.length ∧ st.dirs[i]? = some d := by
  by_cases hlt : i < st.dirs.length
  · refine ⟨hlt, ?_⟩
    rw [bodyOps, List.getElem?_append_left (by simpa using hlt),
      List.getElem?_map] at h
    cases hd : st.dirs[i]? with
    | none => rw [hd] at h; simp at h
    | some d' =>
      rw [hd] at h
      simp at h
      rw [h]
  · exfalso
    have hge : st.dirs.length ≤ i := Nat.le_of_not_lt hlt
    rw [bodyOps, List.getElem?_append_right (by simpa using hge),
      List.getElem?_map] at h
    cases hf : st.files[i - (st.dirs.map Op.mkdir).length]? with
    | none => rw [hf] at h; simp at h
    | some f => rw [hf] at h; simp at h

/-- An `fwrite` found in the body lies in the file section, past every
directory operation. -/
theorem bodyOps_fwrite_index (st : GenState) (i : Nat) (f : FileOp)
    (h : (bodyOps st)[i]? = some (Op.fwrite f)) :
    st.dirs.length ≤ i ∧ f ∈ st.files := by
  by_cases hlt : i < st.dirs.length
  · exfalso
    rw [bodyOps, List.getElem?_append_left (by simpa using hlt),
      List.getElem?_map] at h
    cases hd : st.dirs[i]? with
    | none => rw [hd] at h; simp at h
    | some d => rw [hd] at h; simp at h
  · have hge : st.dirs.length ≤ i := Nat.le_of_not_lt hlt
    refine ⟨hge, ?_⟩
    rw [bodyOps, List.getElem?_append_right (by simpa using hge),
      List.getElem?_map] at h
    cases hf : st.files[i - (st.dirs.map Op.mkdir).length]? with
    | none => rw [hf] at h; simp at h
    | some f' =>
      rw [hf] at h
      simp at h
      exact h ▸ List.getElem?_mem hf

/-- Conversely, every directory operation appears in the body at its own
index. -/
theorem bodyOps_of_dirs (st : GenState) (j : Nat) (d : DirOp)
    (h : st.dirs[j]? = some d) : (bodyOps st)[j]? = some (Op.mkdir d) := by
  have hj : j < st.dirs.length := (List.getElem?_eq_some_iff.mp h).1
  rw [bodyOps, List.getElem?_append_left (by simpa using hj), List.getElem?_map, h]
  rfl

/-- Top-level ancestor property: starting from the virtual root (empty
prefix, nothing pre-created), every emitted directory operation's nonempty
strict ancestors are created earlier in `dirs`, and every emitted file
operation's nonempty strict ancestors are created somewhere in `dirs`. -/
theorem generate_ancestors (tree : List HostNode) (indir : String)
    (hwf : wfForest tree = true) :
    dirAncOk [] (generate tree indir).dirs ∧
    (∀ f, f ∈ (generate tree indir).files → ∀ q r : String, q ≠ "" →
      f.path = q ++ "/" ++ r → q ∈ (generate tree indir).dirs.map DirOp.path) := by
  have hvp : ∀ q : String, q ≠ "" →
      (q = "" ∨ ∃ r : String, ("" : String) = q ++ "/" ++ r) →
      q ∈ ([] : List String) := by
    intro q hq hcase
    rcases hcase with h1 | ⟨r, hr⟩
    · exact absurd h1 hq
    · exfalso
      have hl := congrArg String.length hr
      rw [String.length_append, String.length_append, slash_length] at hl
      have h0 : ("" : String).length = 0 := rfl
      omega
  rw [generate_eq]
  have h := walk_ancestors tree indir "" 0 [] hwf hvp
  refine ⟨h.1, ?_⟩
  intro f hf q r hq hp
  rcases h.2 f hf q r hq hp with hin | hin
  · simp at hin
  · exact hin

/-- Single-character replacement distributes over concatenation. -/
theorem replaceC_append (c : Char) (sub : List Char) (l1 l2 : List Char) :
    replaceC c sub (l1 ++ l2) = replaceC c sub l1 ++ replaceC c sub l2 := by
  induction l1 with
  | nil => rfl
  | cons x xs ih => simp [replaceC, ih, List.append_assoc]

/-- The chain of the four replacements acts character by character. -/
theorem escChain_eq_escAll (l : List Char) :
    replaceC '"' ['\\', '"']
      (replaceC '\n' ['\\', 'n']
        (replaceC '\r' ['\\', 'r']
          (replaceC '\\' ['\\', '\\'] l))) = escAll l := by
  induction l with
  | nil => rfl
  | cons x xs ih =>
    simp only [replaceC]
    rw [replaceC_append, replaceC_append, replaceC_append, ih]
    simp only [escAll]
    congr 1
    by_cases h1 : x = '\\'
    · subst h1; rfl
    by_cases h2 : x = '\r'
    · subst h2; rfl
    by_cases h3 : x = '\n'
    · subst h3; rfl
    by_cases h4 : x = '"'
    · subst h4; rfl
    simp [replaceC, escChar, h1, h2, h3, h4]

/-- `escape` is exactly the character-wise substitution `escAll`. -/
theorem escape_data (s : String) : (escape s).data = escAll s.data :=
  escChain_eq_escAll s.data

/-- Unescaping passes an unescaped leading character through unchanged. -/
theorem cUnescape_cons_ne (x : Char) (t : List Char) (hx : x ≠ '\\') :
    cUnescape (x :: t) = x :: cUnescape t := by
  cases t with
  | nil => simp [cUnescape, hx]
  | cons d rest => simp [cUnescape, hx]

/-- C-style unescaping undoes the character-wise escaping. -/
theorem cUnescape_escAll (l : List Char) : cUnescape (escAll l) = l := by
  induction l with
  | nil => rfl
  | cons x xs ih =>
    simp only [escAll]
    by_cases h1 : x = '\\'
    · subst h1
      simp only [escChar, if_pos rfl]
      simp [cUnescape, ih]
    by_cases h2 : x = '\r'
    · subst h2
      simp only [escChar]
      norm_num
      simp [cUnescape, ih]
    by_cases h3 : x = '\n'
    · subst h3
      simp only [escChar]
      norm_num
      simp [cUnescape, ih]
    by_cases h4 : x = '"'
    · subst h4
      simp only [escChar]
      norm_num
      simp [cUnescape, ih]
    simp only [escChar, if_neg h1, if_neg h2, if_neg h3, if_neg h4]
    rw [List.singleton_append, cUnescape_cons_ne x _ h1, ih]

/-- Unescaping the escape of any string gives the string back. -/
theorem cUnescape_escape (s : String) : cUnescape (escape s).data = s.data := by
  rw [escape_data, cUnescape_escAll]

/-- `escape` is injective. -/
theorem escape_injective : Function.Injective escape := by
  intro a b h
  apply String.ext
  have h2 := congrArg String.data h
  rw [← cUnescape_escape a, ← cUnescape_escape b, h2]

/-- C1: executing the generated entry-function body against an empty target
filesystem reproduces the input tree exactly — the created bindings are a
permutation of the tree's entries, with the same virtual path at each
entry, directories created as directories, and every regular file written
with bytes identical to its host content. -/
theorem claim_C1 (tree : List HostNode) (indir : String) :
    (runOps [] (bodyOps (generate tree indir))).Perm (hostTree tree "") := by
  rw [runOps_eq, List.nil_append, bodyOps_pairs]
  exact specPairs_perm tree ""

/-- C3: `escape` acts character by character, replacing exactly backslash,
carriage return, line feed and double quote (by `\\`, `\r`, `\n`, `\"`)
and leaving every other character unchanged; un-escaping under C
string-literal rules inverts it, so it is injective. -/
theorem claim_C3 :
    (∀ s : String, (escape s).data = escAll s.data) ∧
    escChar '\\' = ['\\', '\\'] ∧
    escChar '\r' = ['\\', 'r'] ∧
    escChar '\n' = ['\\', 'n'] ∧
    escChar '"' = ['\\', '"'] ∧
    (∀ c : Char, c ≠ '\\' → c ≠ '\r' → c ≠ '\n' → c ≠ '"' → escChar c = [c]) ∧
    (∀ s : String, cUnescape (escape s).data = s.data) ∧
    Function.Injective escape := by
  refine ⟨escape_data, rfl, rfl, rfl, rfl, ?_, cUnescape_escape, escape_injective⟩
  intro c h1 h2 h3 h4
  simp [escChar, h1, h2, h3, h4]

/-- C3 witness at concrete inputs. -/
theorem claim_C3_witness :
    escChar 'a' = ['a'] ∧ cUnescape (escape "x\"y\\z").data = "x\"y\\z".data :=
  ⟨claim_C3.2.2.2.2.2.1 'a' (by decide) (by decide) (by decide) (by decide),
   claim_C3.2.2.2.2.2.2.1 "x\"y\\z"⟩

/-- C5: exactly one blob constant is emitted per regular file (the rom list
is the file-operation list's rom column, and the file operations match the
tree's regular files in discovery order); blob names carry a counter that
starts at 0 and increases by 1 in discovery order; each length constant
equals the blob's byte count. -/
theorem claim_C5 (tree : List HostNode) (indir : String) :
    (generate tree indir).roms = (generate tree indir).files.map FileOp.rom ∧
    (generate tree indir).files.map (fun f => (f.path, VNode.file f.rom.data)) =
      specFilePairs tree "" ∧
    (generate tree indir).roms.map Rom.name =
      (List.range (generate tree indir).roms.length).map
        (fun i => "filerom_" ++ toString i) ∧
    (generate tree indir).roms.map Rom.lenConst =
      (generate tree indir).roms.map (fun r => r.data.length) := by
  refine ⟨?_, ?_, ?_, ?_⟩
  · rw [generate_eq]
    exact walk_roms_eq_files tree indir "" 0
  · rw [generate_eq]
    exact walk_files_pairs tree indir "" 0
  · rw [generate_eq, walk_rom_names tree indir "" 0]
    apply List.map_congr_left
    intro i _
    rw [Nat.zero_add]
  · rw [generate_eq]
    apply List.map_congr_left
    intro r hr
    exact walk_roms_lenConst tree indir "" 0 r hr

/-- C9: the numeric length argument of every emitted `fs_make_file` and
`fs_open` call is the character length of the raw (unescaped) virtual path,
which can differ from the length of the escaped literal preceding it. -/
theorem claim_C9 (tree : List HostNode) (indir : String) :
    (∀ d ∈ (generate tree indir).dirs, d.lenArg = d.path.length) ∧
    (∀ f ∈ (generate tree indir).files, f.lenArg = f.path.length) ∧
    (generate [HostNode.mk "a\"b" false [] []] "x").files.map
      (fun f => (f.lenArg, (escape f.path).length)) = [(4, 5)] := by
  refine ⟨?_, ?_, ?_⟩
  · rw [generate_eq]
    exact fun d hd => walk_dirs_lenArg tree indir "" 0 d hd
  · rw [generate_eq]
    exact fun f hf => walk_files_lenArg tree indir "" 0 f hf
  · rw [generate_eq]
    simp only [walk_cons_file, walk_nil]
    decide

/-- C9 witness at a concrete operation. -/
theorem claim_C9_witness :
    (⟨"/a\"b", 4, ⟨"filerom_0", [], 0⟩⟩ : FileOp).lenArg =
      (⟨"/a\"b", 4, ⟨"filerom_0", [], 0⟩⟩ : FileOp).path.length :=
  (claim_C9 [HostNode.mk "a\"b" false [] []] "x").2.1
    ⟨"/a\"b", 4, ⟨"filerom_0", [], 0⟩⟩
    (by simp only [generate_eq, walk_cons_file, walk_nil]; decide)

/-- C10: classification is decided solely by the `isdir` test — the emitted
directory operations are exactly the entries whose `isdir` test is true, in
discovery order; every other entry, whatever its kind, is read fully and
embedded as a file blob, in discovery order; no entry is skipped, and one
input file is opened for reading per embedded entry. -/
theorem claim_C10 (tree : List HostNode) (indir : String) :
    (generate tree indir).dirs.map (fun d => (d.path, VNode.dir)) =
      specDirPairs tree "" ∧
    (generate tree indir).files.map (fun f => (f.path, VNode.file f.rom.data)) =
      specFilePairs tree "" ∧
    (generate tree indir).dirs.length + (generate tree indir).files.length =
      (hostTree tree "").length ∧
    (generate tree indir).reads.length = (generate tree indir).files.length := by
  have hd := walk_dirs_pairs tree indir "" 0
  have hf := walk_files_pairs tree indir "" 0
  refine ⟨?_, ?_, ?_, ?_⟩
  · rw [generate_eq]
    exact hd
  · rw [generate_eq]
    exact hf
  · rw [generate_eq]
    have hdl := congrArg List.length hd
    have hfl := congrArg List.length hf
    rw [List.length_map] at hdl hfl
    rw [hdl, hfl, specDirPairs, specFilePairs, filter_isDir_length]
  · rw [generate_eq]
    exact walk_reads_length tree indir "" 0

/-- Reduction of the top level on a correct argument count. -/
theorem ramfsGenMain_ok (argv : List String) (host : String → List HostNode)
    (h : argv.length = 4) :
    ramfsGenMain argv host =
      RunResult.ok (argv.getD 2 "")
        (outputText (generate (host (argv.getD 1 "")) (argv.getD 1 ""))
          (argv.getD 3 ""))
        (generate (host (argv.getD 1 "")) (argv.getD 1 "")).reads "" := by
  rw [ramfsGenMain, if_neg (by omega)]

/-- C4: with an argument count other than exactly 3 program arguments the
generator prints the one-line usage message, exits with code 1 and writes
no file; with exactly 3 it writes the one output file.  (`sys.argv` has
length 4 in the correct case: the script name plus 3 arguments.) -/
theorem claim_C4 (argv : List String) (host : String → List HostNode) :
    (argv.length ≠ 4 →
      ramfsGenMain argv host =
        RunResult.usage "Usage: ramfs-gen.py [indir] [outfile] [name]" 1 ∧
      writesOf (ramfsGenMain argv host) = [] ∧
      stdoutOf (ramfsGenMain argv host) =
        "Usage: ramfs-gen.py [indir] [outfile] [name]" ∧
      exitCodeOf (ramfsGenMain argv host) = 1) ∧
    (argv.length = 4 →
      writesOf (ramfsGenMain argv host) =
        [(argv.getD 2 "",
          outputText (generate (host (argv.getD 1 "")) (argv.getD 1 ""))
            (argv.getD 3 ""))] ∧
      exitCodeOf (ramfsGenMain argv host) = 0) := by
  constructor
  · intro h
    have hu : ramfsGenMain argv host =
        RunResult.usage "Usage: ramfs-gen.py [indir] [outfile] [name]" 1 := by
      rw [ramfsGenMain, if_pos h]
    rw [hu]
    exact ⟨rfl, rfl, rfl, rfl⟩
  · intro h
    rw [ramfsGenMain_ok argv host h]
    exact ⟨rfl, rfl⟩

/-- C4 witness: a one-argument call hits the usage branch, a three-argument
call writes the output file. -/
theorem claim_C4_witness :
    (ramfsGenMain ["ramfs-gen.py"] (fun _ => []) =
      RunResult.usage "Usage: ramfs-gen.py [indir] [outfile] [name]" 1) ∧
    writesOf (ramfsGenMain ["ramfs-gen.py", "in", "out", "entry"] (fun _ => [])) =
      [("out", outputText (generate [] "in") "entry")] :=
  ⟨((claim_C4 ["ramfs-gen.py"] (fun _ => [])).1 (by decide)).1,
   ((claim_C4 ["ramfs-gen.py", "in", "out", "entry"] (fun _ => [])).2 rfl).1⟩

/-- C7: a successful run writes exactly one file (the named output file),
prints nothing, and touches the input tree only by opening files under the
input directory for reading. -/
theorem claim_C7 (argv : List String) (host : String → List HostNode)
    (h : argv.length = 4) :
    writesOf (ramfsGenMain argv host) =
      [(argv.getD 2 "",
        outputText (generate (host (argv.getD 1 "")) (argv.getD 1 ""))
          (argv.getD 3 ""))] ∧
    stdoutOf (ramfsGenMain argv host) = "" ∧
    readsOf (ramfsGenMain argv host) =
      (generate (host (argv.getD 1 "")) (argv.getD 1 "")).reads ∧
    (∀ r ∈ readsOf (ramfsGenMain argv host),
      ∃ s : String, r = argv.getD 1 "" ++ "/" ++ s) := by
  rw [ramfsGenMain_ok argv host h]
  refine ⟨rfl, rfl, rfl, ?_⟩
  intro r hr
  rw [readsOf, generate_eq] at hr
  exact walk_reads_under (host (argv.getD 1 "")) (argv.getD 1 "") "" 0 r hr

/-- C7 witness at a concrete invocation. -/
theorem claim_C7_witness :
    stdoutOf (ramfsGenMain ["ramfs-gen.py", "in", "out", "entry"]
      (fun _ => [HostNode.mk "f" false [104] []])) = "" :=
  (claim_C7 ["ramfs-gen.py", "in", "out", "entry"]
    (fun _ => [HostNode.mk "f" false [104] []]) rfl).2.1

/-- C8: the generator is deterministic in its inputs — two runs with the
same arguments whose hosts present the same listing (same enumeration
order, same bytes) for the input directory produce identical results, and
in particular identical embedded byte arrays. -/
theorem claim_C8 (argv : List String) (host1 host2 : String → List HostNode)
    (h : host1 (argv.getD 1 "") = host2 (argv.getD 1 "")) :
    ramfsGenMain argv host1 = ramfsGenMain argv host2 ∧
    (generate (host1 (argv.getD 1 "")) (argv.getD 1 "")).roms =
      (generate (host2 (argv.getD 1 "")) (argv.getD 1 "")).roms := by
  constructor
  · by_cases hlen : argv.length = 4
    · rw [ramfsGenMain_ok argv host1 hlen, ramfsGenMain_ok argv host2 hlen, h]
    · rw [ramfsGenMain, ramfsGenMain, if_pos hlen, if_pos hlen]
  · rw [h]

/-- C8 witness at a concrete invocation. -/
theorem claim_C8_witness :
    ramfsGenMain ["ramfs-gen.py", "in", "out", "entry"] (fun _ => []) =
      ramfsGenMain ["ramfs-gen.py", "in", "out", "entry"] (fun _ => []) :=
  (claim_C8 ["ramfs-gen.py", "in", "out", "entry"]
    (fun _ => []) (fun _ => []) rfl).1

/-- C2: in the emitted body every directory creation precedes every file
write; within each group operations appear in tree-walk discovery order
(they match the tree's directory and file entries in `hostTree` order); and
for every emitted operation on path `p`, the creation of every nonempty
strict ancestor of `p` appears strictly earlier in the body.  The
well-formedness hypothesis states what `os.listdir` guarantees: entry names
are nonempty and contain no slash. -/
theorem claim_C2 (tree : List HostNode) (indir : String)
    (hwf : wfForest tree = true) :
    (∀ (i j : Nat) (d : DirOp) (f : FileOp),
      (bodyOps (generate tree indir))[i]? = some (Op.mkdir d) →
      (bodyOps (generate tree indir))[j]? = some (Op.fwrite f) → i < j) ∧
    (generate tree indir).dirs.map (fun d => (d.path, VNode.dir)) =
      specDirPairs tree "" ∧
    (generate tree indir).files.map (fun f => (f.path, VNode.file f.rom.data)) =
      specFilePairs tree "" ∧
    (∀ (i : Nat) (op : Op), (bodyOps (generate tree indir))[i]? = some op →
      ∀ q r : String, q ≠ "" → op.path = q ++ "/" ++ r →
      ∃ j, j < i ∧ ∃ d' : DirOp,
        (bodyOps (generate tree indir))[j]? = some (Op.mkdir d') ∧
        d'.path = q) := by
  refine ⟨?_, ?_, ?_, ?_⟩
  · intro i j d f hi hj
    have h1 := (bodyOps_mkdir_index _ i d hi).1
    have h2 := (bodyOps_fwrite_index _ j f hj).1
    omega
  · rw [generate_eq]
    exact walk_dirs_pairs tree indir "" 0
  · rw [generate_eq]
    exact walk_files_pairs tree indir "" 0
  · intro i op hi q r hq hpath
    have hGA := generate_ancestors tree indir hwf
    cases op with
    | mkdir d =>
      obtain ⟨hlt, hd⟩ := bodyOps_mkdir_index _ i d hi
      rcases hGA.1 i d q r hd hq hpath with hin | ⟨j, hj, d', hd', hp'⟩
      · simp at hin
      · exact ⟨j, hj, d', bodyOps_of_dirs _ j d' hd', hp'⟩
    | fwrite f =>
      obtain ⟨hge, hf⟩ := bodyOps_fwrite_index _ i f hi
      have hin := hGA.2 f hf q r hq hpath
      rcases List.mem_map.mp hin with ⟨d', hd'mem, hd'path⟩
      rcases List.getElem?_of_mem hd'mem with ⟨j, hj⟩
      have hjlt : j < (generate tree indir).dirs.length :=
        (List.getElem?_eq_some_iff.mp hj).1
      exact ⟨j, by omega, d', bodyOps_of_dirs _ j d' hj, hd'path⟩

/-- C2 witness at a concrete tree. -/
theorem claim_C2_witness :
    (generate [HostNode.mk "sub" true []
        [HostNode.mk "b.bin" false [] []]] "in").dirs.map
      (fun d => (d.path, VNode.dir)) =
    specDirPairs [HostNode.mk "sub" true [] [HostNode.mk "b.bin" false [] []]] "" :=
  (claim_C2 [HostNode.mk "sub" true [] [HostNode.mk "b.bin" false [] []]] "in"
    (by simp [wfForest])).2.1

/-- C6: on the concrete tree with `a.txt` (bytes 0x68 0x69) and `sub/`
containing empty `b.bin`, the generated operations are in order: create
directory `/sub`, write `/a.txt` from the 2-byte blob `filerom_0`, write
`/sub/b.bin` from the 0-byte blob `filerom_1`; exactly two blob constants
are emitted, indexed 0 (for `a.txt`) and 1 (for `b.bin`). -/
theorem claim_C6 :
    bodyOps (generate
      [HostNode.mk "a.txt" false [0x68, 0x69] [],
       HostNode.mk "sub" true [] [HostNode.mk "b.bin" false [] []]] "root") =
      [Op.mkdir ⟨"/sub", 4⟩,
       Op.fwrite ⟨"/a.txt", 6, ⟨"filerom_0", [0x68, 0x69], 2⟩⟩,
       Op.fwrite ⟨"/sub/b.bin", 10, ⟨"filerom_1", [], 0⟩⟩] ∧
    (generate
      [HostNode.mk "a.txt" false [0x68, 0x69] [],
       HostNode.mk "sub" true [] [HostNode.mk "b.bin" false [] []]] "root").roms =
      [⟨"filerom_0", [0x68, 0x69], 2⟩, ⟨"filerom_1", [], 0⟩] := by
  constructor <;>
    (simp only [bodyOps, generate_eq, walk_cons_file, walk_cons_dir, walk_nil]
     decide)
